import Mathlib

/-!
# Verification of the Starling lexer (`src/compile.rs`, `src/common.rs`)

A shallow embedding of the tokenizer portion of the Starling compiler
(a Rust port of the Wren compiler front end), together with theorems
settling the specification claims about it.

The Rust `Parser` struct's lexing-relevant fields become a Lean structure;
`while` loops become fuel-indexed structural recursions (the wrapper passes
fuel strictly larger than the number of characters the loop can consume, so
the out-of-fuel branch is unreachable in every run the theorems talk about).
Machine integers that carry `-1` sentinels (`i32` in the Rust source) are
embedded as `Int`; cursor positions (`usize`) as `Nat`.
-/

namespace Starling

/-- The lexing-relevant state of the Rust `Parser` struct in
`src/compile.rs`: the source buffer, the cursor `current_char_i`, the
1-based `current_line`, and the sticky `has_error` flag.  The token
triple, interpolation-paren stack, VM and module handles play no part in
the claims and are omitted. -/
structure Parser where
  source : List Char
  current_char_i : Nat
  current_line : Nat
  has_error : Bool

/-- `Parser::peek_char`: `self.source.chars().nth(self.current_char_i).unwrap_or('\0')`. -/
def peek_char (p : Parser) : Char :=
  p.source.getD p.current_char_i '\x00'

/-- `Parser::peek_next_char`: the character at `current_char_i + 1`, or `'\0'`. -/
def peek_next_char (p : Parser) : Char :=
  p.source.getD (p.current_char_i + 1) '\x00'

/-- `Parser::next_char`: returns the peeked character, advances the cursor by
one, and bumps `current_line` when the consumed character is a newline. -/
def next_char (p : Parser) : Char × Parser :=
  let c := peek_char p
  let p1 : Parser := { p with current_char_i := p.current_char_i + 1 }
  if c = '\n' then (c, { p1 with current_line := p1.current_line + 1 }) else (c, p1)

/-- `Parser::match_char`: if the current character is `c`, consume it and
return `true`, otherwise return `false` and leave the state unchanged. -/
def match_char (p : Parser) (c : Char) : Bool × Parser :=
  if peek_char p ≠ c then (false, p) else (true, (next_char p).2)

/-- Modelled from the spec: `Parser::print_error` is an `unimplemented!()`
`@todo` stub in `src/compile.rs`; per the spec (§4.1, §7) an error is
recorded through the diagnostic sink and sets the sticky `has_error` flag,
and compilation continues (no abort, no change to the cursor). -/
def print_error (p : Parser) (_line : Nat) (_label _format : String) : Parser :=
  { p with has_error := true }

/-- `Parser::lex_error`: reports a lexical error at the current line via
`print_error`. -/
def lex_error (p : Parser) (format : String) : Parser :=
  print_error p p.current_line "Error" format

/-- `is_digit` from `src/compile.rs`: `c >= '0' && c <= '9'`. -/
def is_digit (c : Char) : Bool :=
  '0' ≤ c && c ≤ '9'

/-- The loop of `Parser::skip_block_comment`, fuel-indexed.  `nesting`
starts at 1; `/*` increments it, `*/` decrements it, EOF (`'\0'`) is an
"Unterminated block comment." lexical error. -/
def skip_block_comment_loop : Nat → Parser → Nat → Parser
  | 0, p, _ => p
  | fuel + 1, p, nesting =>
    if nesting = 0 then p
    else if peek_char p = '\x00' then lex_error p "Unterminated block comment."
    else if peek_char p = '/' ∧ peek_next_char p = '*' then
      skip_block_comment_loop fuel (next_char (next_char p).2).2 (nesting + 1)
    else if peek_char p = '*' ∧ peek_next_char p = '/' then
      skip_block_comment_loop fuel (next_char (next_char p).2).2 (nesting - 1)
    else
      skip_block_comment_loop fuel (next_char p).2 nesting

/-- `Parser::skip_block_comment`.  Each loop iteration consumes at least one
character, so `source.length + 1` units of fuel always suffice. -/
def skip_block_comment (p : Parser) : Parser :=
  skip_block_comment_loop (p.source.length + 1) p 1

/-- `Parser::read_hex_digit`: consumes the next character and returns its
hex value (0-15); on a non-hex character returns `-1` and puts the cursor
back (`self.current_char_i -= 1`). -/
def read_hex_digit (p : Parser) : Int × Parser :=
  let r := next_char p
  let c := r.1
  let p1 := r.2
  if '0' ≤ c ∧ c ≤ '9' then ((c.toNat : Int) - ('0'.toNat : Int), p1)
  else if 'a' ≤ c ∧ c ≤ 'f' then ((c.toNat : Int) - ('a'.toNat : Int) + 10, p1)
  else if 'A' ≤ c ∧ c ≤ 'F' then ((c.toNat : Int) - ('A'.toNat : Int) + 10, p1)
  else (-1, { p1 with current_char_i := p1.current_char_i - 1 })

/-- A `while is_digit(self.peek_char()) { self.next_char(); }` loop from
`Parser::read_number`, fuel-indexed. -/
def skip_digits : Nat → Parser → Parser
  | 0, p => p
  | fuel + 1, p =>
    if is_digit (peek_char p) then skip_digits fuel (next_char p).2 else p

/-- The fractional-part block of `Parser::read_number`: a `.` is consumed
only when immediately followed by a digit. -/
def read_number_frac (p : Parser) : Parser :=
  if peek_char p = '.' ∧ is_digit (peek_next_char p) then
    skip_digits (p.source.length + 1) (next_char p).2
  else p

/-- The body run after an exponent marker was consumed in
`Parser::read_number`: at most one sign character, then at least one digit
is required (otherwise "Unterminated scientific notation."). -/
def read_number_exp_rest (p : Parser) : Parser :=
  let s := match_char p '+'
  let p1 := if s.1 then s.2 else (match_char s.2 '-').2
  let p2 := if is_digit (peek_char p1) then p1
            else lex_error p1 "Unterminated scientific notation."
  skip_digits (p2.source.length + 1) p2

/-- The scientific-notation block of `Parser::read_number`:
`if self.match_char('e') || self.match_char('E') { ... }`. -/
def read_number_exp (p : Parser) : Parser :=
  match match_char p 'e' with
  | (true, p1) => read_number_exp_rest p1
  | (false, p1) =>
    match match_char p1 'E' with
    | (true, p2) => read_number_exp_rest p2
    | (false, p2) => p2

/-- `Parser::read_number`: integer digit run, optional fraction, optional
exponent.  The trailing `make_number(false)` call is an `unimplemented!()`
stub in src; modelled from the spec it parses the token's text into a
value and does not move the cursor, so it is the identity on this state. -/
def read_number (p : Parser) : Parser :=
  read_number_exp (read_number_frac (skip_digits (p.source.length + 1) p))

/-- The four `i32` bookkeeping variables of `Parser::read_raw_string`
(`skip_start`, `first_new_line`, `skip_end`, `last_new_line`, with `-1`
sentinels) together with the accumulated string. -/
structure RawAcc where
  string : List Char
  skip_start : Int
  first_new_line : Int
  skip_end : Int
  last_new_line : Int

/-- The per-character bookkeeping of the `Parser::read_raw_string` loop
(the `match c` arm for `'\n'` and the three whitespace-tracking updates),
applied before the EOF check and the push of `c`. -/
def raw_body_acc (c : Char) (acc : RawAcc) : RawAcc :=
  let acc1 :=
    if c = '\n' then
      { acc with
        last_new_line := (acc.string.length : Int)
        skip_end := (acc.string.length : Int)
        first_new_line :=
          if acc.first_new_line = -1 then (acc.string.length : Int)
          else acc.first_new_line }
    else acc
  let ws := c = ' ' ∨ c = '\t'
  let acc2 := if c = '\n' ∨ ws then { acc1 with skip_end := 1 } else acc1
  let acc3 :=
    if acc2.skip_start ≠ -1 ∧ ws ∧ acc2.first_new_line = -1 then
      { acc2 with skip_start := (acc2.string.length : Int) + 1 }
    else acc2
  if acc3.first_new_line = -1 ∧ ¬ ws ∧ c ≠ '\n' then
    { acc3 with skip_start := -1 }
  else acc3

/-- The main loop of `Parser::read_raw_string`, fuel-indexed: consume a
character; stop on an unescaped `"""`; skip `'\r'`; update the trim
bookkeeping; on hitting `'\0'` in the 3-character window report
"Unterminated raw string." and put the cursor back one; otherwise push the
character and continue. -/
def read_raw_loop : Nat → Parser → RawAcc → Parser × RawAcc
  | 0, p, acc => (p, acc)
  | fuel + 1, p, acc =>
    let c := peek_char p
    let p1 := (next_char p).2
    let c1 := peek_char p1
    let c2 := peek_next_char p1
    if c = '\x22' ∧ c1 = '\x22' ∧ c2 = '\x22' then (p1, acc)
    else if c = '\r' then read_raw_loop fuel p1 acc
    else
      let acc1 := raw_body_acc c acc
      if c = '\x00' ∨ c1 = '\x00' ∨ c2 = '\x00' then
        ({ lex_error p1 "Unterminated raw string." with
            current_char_i := p1.current_char_i - 1 }, acc1)
      else
        read_raw_loop fuel p1 { acc1 with string := acc1.string ++ [c] }

/-- `Parser::read_raw_string`, entered with the cursor on the second `"` of
the opening delimiter.  Returns the final parser state and the literal's
content.  The content extraction follows the commented-out `@todo` line
`wren_new_string_length(string, offset, count)` in src, modelled from the
spec: the token's value is `count` accumulated characters starting at
`offset`. -/
def read_raw_string (p : Parser) : Parser × List Char :=
  let p1 := (next_char p).2
  let p2 := (next_char p1).2
  let r := read_raw_loop (p2.source.length + 2) p2 ⟨[], 0, -1, -1, -1⟩
  let p3 := (next_char r.1).2
  let p4 := (next_char p3).2
  let acc := r.2
  let offset : Int :=
    if acc.first_new_line ≠ -1 ∧ acc.skip_start = acc.first_new_line then
      acc.first_new_line + 1
    else 0
  let count0 : Int := (acc.string.length : Int)
  let count1 : Int :=
    if acc.last_new_line ≠ -1 ∧ acc.skip_end = acc.last_new_line then
      acc.last_new_line
    else count0
  let count : Int := if offset > count1 then 0 else count1 - offset
  (p4, (acc.string.drop offset.toNat).take count.toNat)

/-- `MAX_LOCALS` from `src/compile.rs` (`usize`). -/
def MAX_LOCALS : Nat := 256

/-- `MAX_UPVALUES` from `src/compile.rs` (`usize`). -/
def MAX_UPVALUES : Nat := 256

/-- `MAX_CONSTANTS` from `src/compile.rs` (`i32`, value `1 << 16`). -/
def MAX_CONSTANTS : Nat := 1 <<< 16

/-- `MAX_JUMP` from `src/compile.rs` (`i32`, value `1 << 16`). -/
def MAX_JUMP : Nat := 1 <<< 16

/-- `MAX_MODULE_VARS` from `src/common.rs` (`i32`). -/
def MAX_MODULE_VARS : Nat := 65536

/-- `MAX_FIELDS` from `src/common.rs` (`i32`). -/
def MAX_FIELDS : Nat := 255

/-- Modelled from the spec: the compiler passes that enforce the capacity
limits (declaring a local/upvalue/field/constant/module variable) are not
in src — only the limit constants are.  Per the spec each limit is a hard
compile error, not a panic: a total function that refuses the new entry
with an error value once the table already holds `limit` entries. -/
def check_limit (count limit : Nat) (msg : String) : Except String Nat :=
  if limit ≤ count then Except.error msg else Except.ok (count + 1)

/-- Modelled from the spec: patching a forward jump whose distance exceeds
`MAX_JUMP` instructions is a hard compile error, not silent truncation. -/
def check_jump (distance : Nat) : Except String Nat :=
  if MAX_JUMP < distance then Except.error "Too much code to jump over."
  else Except.ok distance

/-- Whether a modelled compile step succeeded. -/
def exceptOk : Except String Nat → Bool
  | Except.ok _ => true
  | Except.error _ => false

/-- The claim's counter-based nesting rule for block comments, as an
inductive scan relation: `CloseScan n cs k` holds when scanning `cs` with
`n` comment levels still open consumes exactly `k` characters, ending
right after the close that balances the outermost open.  `/*` opens a
level, `*/` closes one, every other non-`'\0'` character is skipped; the
`other` rule excludes the two-character shapes so the scan is the greedy
left-to-right one the lexer performs. -/
inductive CloseScan : Nat → List Char → Nat → Prop where
  | done (cs : List Char) : CloseScan 0 cs 0
  | openC (n : Nat) (cs : List Char) (k : Nat) :
      CloseScan (n + 2) cs k → CloseScan (n + 1) ('/' :: '*' :: cs) (k + 2)
  | closeC (n : Nat) (cs : List Char) (k : Nat) :
      CloseScan n cs k → CloseScan (n + 1) ('*' :: '/' :: cs) (k + 2)
  | other (n : Nat) (cs : List Char) (k : Nat) (c : Char) :
      c ≠ '\x00' → ¬ (c = '/' ∧ cs.headD '\x00' = '*') →
      ¬ (c = '*' ∧ cs.headD '\x00' = '/') →
      CloseScan (n + 1) cs k → CloseScan (n + 1) (c :: cs) (k + 1)

/-- The three-quote delimiter of a raw string literal. -/
def rawQuotes : List Char := ['\x22', '\x22', '\x22']

/-! ## Bridging lemmas between the cursor-based state and list suffixes -/

theorem getD_eq_headD_drop (l : List Char) (n : Nat) :
    l.getD n '\x00' = (l.drop n).headD '\x00' := by
  induction l generalizing n with
  | nil => simp
  | cons a t ih =>
    cases n with
    | zero => simp
    | succ m =>
      simp only [List.getD_cons_succ, List.drop_succ_cons]
      exact ih m

theorem peek_char_eq (p : Parser) :
    peek_char p = (p.source.drop p.current_char_i).headD '\x00' :=
  getD_eq_headD_drop _ _

theorem drop_succ_of_eq_cons {l : List Char} {n : Nat} {c : Char} {t : List Char}
    (h : l.drop n = c :: t) : l.drop (n + 1) = t := by
  have h1 : (l.drop n).drop 1 = l.drop (n + 1) := List.drop_drop 1 n l
  rw [h] at h1
  simpa using h1.symm

theorem drop_add_of_drop {l : List Char} {n : Nat} {pre rest : List Char}
    (h : l.drop n = pre ++ rest) : l.drop (n + pre.length) = rest := by
  have h1 : (l.drop n).drop pre.length = l.drop (n + pre.length) :=
    List.drop_drop pre.length n l
  rw [h, List.drop_left] at h1
  exact h1.symm

theorem peek_char_of_drop {p : Parser} {c : Char} {t : List Char}
    (h : p.source.drop p.current_char_i = c :: t) : peek_char p = c := by
  rw [peek_char_eq, h]; rfl

theorem peek_char_of_drop_nil {p : Parser}
    (h : p.source.drop p.current_char_i = []) : peek_char p = '\x00' := by
  rw [peek_char_eq, h]; rfl

theorem peek_next_char_eq (p : Parser) :
    peek_next_char p = (p.source.drop (p.current_char_i + 1)).headD '\x00' :=
  getD_eq_headD_drop _ _

theorem peek_next_char_of_drop {p : Parser} {c : Char} {t : List Char}
    (h : p.source.drop p.current_char_i = c :: t) :
    peek_next_char p = t.headD '\x00' := by
  rw [peek_next_char_eq, drop_succ_of_eq_cons h]

theorem next_char_snd (p : Parser) :
    (next_char p).2 = if peek_char p = '\n'
      then { p with current_char_i := p.current_char_i + 1,
                    current_line := p.current_line + 1 }
      else { p with current_char_i := p.current_char_i + 1 } := by
  simp only [next_char]
  split <;> rfl

@[simp] theorem next_char_snd_source (p : Parser) :
    ((next_char p).2).source = p.source := by
  rw [next_char_snd]; split <;> rfl

@[simp] theorem next_char_snd_i (p : Parser) :
    ((next_char p).2).current_char_i = p.current_char_i + 1 := by
  rw [next_char_snd]; split <;> rfl

@[simp] theorem next_char_snd_err (p : Parser) :
    ((next_char p).2).has_error = p.has_error := by
  rw [next_char_snd]; split <;> rfl

theorem next_char_fst (p : Parser) : (next_char p).1 = peek_char p := by
  simp only [next_char]
  split <;> rfl

theorem next_char_snd_of_ne {p : Parser} (h : peek_char p ≠ '\n') :
    (next_char p).2 = { p with current_char_i := p.current_char_i + 1 } := by
  rw [next_char_snd, if_neg h]

@[simp] theorem lex_error_err (p : Parser) (msg : String) :
    (lex_error p msg).has_error = true := rfl

@[simp] theorem lex_error_source (p : Parser) (msg : String) :
    (lex_error p msg).source = p.source := rfl

@[simp] theorem lex_error_i (p : Parser) (msg : String) :
    (lex_error p msg).current_char_i = p.current_char_i := rfl

/-! ## Digit-run lemmas for `read_number` -/

theorem skip_digits_err : ∀ (fuel : Nat) (p : Parser),
    (skip_digits fuel p).has_error = p.has_error := by
  intro fuel
  induction fuel with
  | zero => intro p; rfl
  | succ f ih =>
    intro p
    simp only [skip_digits]
    split
    · rw [ih]; simp
    · rfl

theorem skip_digits_spec (d : List Char) : ∀ (fuel : Nat) (p : Parser) (rest : List Char),
    p.source.drop p.current_char_i = d ++ rest →
    (∀ c ∈ d, is_digit c = true) →
    is_digit (rest.headD '\x00') = false →
    d.length ≤ fuel →
    skip_digits fuel p = { p with current_char_i := p.current_char_i + d.length } := by
  induction d with
  | nil =>
    intro fuel p rest hdrop hd hrest _
    cases fuel with
    | zero => rfl
    | succ f =>
      have hp : peek_char p = rest.headD '\x00' := by
        rw [peek_char_eq]; rw [List.nil_append] at hdrop; rw [hdrop]
      simp only [skip_digits, hp, hrest]
      rfl
  | cons c d' ih =>
    intro fuel p rest hdrop hd hrest hlen
    cases fuel with
    | zero => simp at hlen
    | succ f =>
      have hdc : p.source.drop p.current_char_i = c :: (d' ++ rest) := by
        simpa using hdrop
      have hp : peek_char p = c := peek_char_of_drop hdc
      have hcd : is_digit c = true := hd c (by simp)
      have hcn : peek_char p ≠ '\n' := by
        rw [hp]; intro h; rw [h] at hcd; simp [is_digit] at hcd
      have hstep : skip_digits (f + 1) p =
          skip_digits f { p with current_char_i := p.current_char_i + 1 } := by
        simp only [skip_digits, hp, hcd, if_pos, next_char_snd_of_ne hcn]
      have hdrop' : ({ p with current_char_i := p.current_char_i + 1 } : Parser).source.drop
          ({ p with current_char_i := p.current_char_i + 1 } : Parser).current_char_i
          = d' ++ rest := drop_succ_of_eq_cons hdc
      have hlen' : d'.length ≤ f := by simp at hlen; omega
      rw [hstep, ih f _ rest hdrop' (fun x hx => hd x (by simp [hx])) hrest hlen']
      have : p.current_char_i + 1 + d'.length = p.current_char_i + (c :: d').length := by
        simp; omega
      simp [this]

theorem char_le_toNat {a b : Char} (h : a ≤ b) : a.toNat ≤ b.toNat := by
  simpa [Char.le_def, UInt32.le_def, BitVec.le_def, Char.toNat, UInt32.toNat] using h

theorem length_le_of_drop {l : List Char} {n : Nat} {pre rest : List Char}
    (h : l.drop n = pre ++ rest) : pre.length ≤ l.length := by
  have := congrArg List.length h
  simp at this
  omega

/-- The sign-and-digit check after an exponent marker: `read_number_exp_rest`
reports "Unterminated scientific notation." exactly when the character after
the (at most one) consumed sign is not a digit. -/
theorem read_number_exp_rest_err (q : Parser) (t : List Char)
    (hdq : q.source.drop q.current_char_i = t) :
    (read_number_exp_rest q).has_error =
      (q.has_error ||
        !(is_digit ((if t.headD '\x00' = '+' ∨ t.headD '\x00' = '-'
                     then t.tail else t).headD '\x00'))) := by
  have hpu : peek_char q = t.headD '\x00' := by rw [peek_char_eq, hdq]
  by_cases h1 : t.headD '\x00' = '+'
  · cases t with
    | nil => exact absurd h1 (by decide)
    | cons a t2 =>
      simp only [List.headD_cons] at h1
      subst h1
      have hpq : peek_char q = '+' := by simpa using hpu
      have hnn : peek_char q ≠ '\n' := by rw [hpq]; decide
      have hs : match_char q '+' =
          (true, { q with current_char_i := q.current_char_i + 1 }) := by
        rw [match_char, if_neg (fun hcon => hcon hpq), next_char_snd_of_ne hnn]
      have hp1 : peek_char { q with current_char_i := q.current_char_i + 1 } =
          t2.headD '\x00' := by
        rw [peek_char_eq]
        show (q.source.drop (q.current_char_i + 1)).headD '\x00' = _
        rw [drop_succ_of_eq_cons hdq]
      simp only [read_number_exp_rest, hs, if_true, skip_digits_err, hp1,
        List.headD_cons, List.tail_cons]
      rw [if_pos (Or.inl trivial)]
      cases hdig : is_digit (t2.headD '\x00') <;> simp [hdig]
  · by_cases h2 : t.headD '\x00' = '-'
    · cases t with
      | nil => exact absurd h2 (by decide)
      | cons a t2 =>
        simp only [List.headD_cons] at h2
        subst h2
        have hpq : peek_char q = '-' := by simpa using hpu
        have hne : peek_char q ≠ '+' := by rw [hpq]; decide
        have hnn : peek_char q ≠ '\n' := by rw [hpq]; decide
        have hs1 : match_char q '+' = (false, q) := by
          rw [match_char, if_pos hne]
        have hs2 : match_char q '-' =
            (true, { q with current_char_i := q.current_char_i + 1 }) := by
          rw [match_char, if_neg (fun hcon => hcon hpq), next_char_snd_of_ne hnn]
        have hp1 : peek_char { q with current_char_i := q.current_char_i + 1 } =
            t2.headD '\x00' := by
          rw [peek_char_eq]
          show (q.source.drop (q.current_char_i + 1)).headD '\x00' = _
          rw [drop_succ_of_eq_cons hdq]
        simp only [read_number_exp_rest, hs1, hs2, skip_digits_err, hp1,
          List.headD_cons, List.tail_cons, Bool.false_eq_true, if_false]
        rw [if_pos (Or.inr trivial)]
        cases hdig : is_digit (t2.headD '\x00') <;> simp [hdig]
    · have hne : peek_char q ≠ '+' := by rw [hpu]; exact h1
      have hne2 : peek_char q ≠ '-' := by rw [hpu]; exact h2
      have hs1 : match_char q '+' = (false, q) := by
        rw [match_char, if_pos hne]
      have hs2 : match_char q '-' = (false, q) := by
        rw [match_char, if_pos hne2]
      simp only [read_number_exp_rest, hs1, hs2, skip_digits_err, hpu,
        Bool.false_eq_true, if_false]
      have hcond : ¬ (t.headD '\x00' = '+' ∨ t.headD '\x00' = '-') := by
        rintro (h | h)
        · exact h1 h
        · exact h2 h
      rw [if_neg hcond]
      cases hdig : is_digit (t.headD '\x00') <;> simp [hdig]

/-! ## Raw-string loop lemmas -/

theorem lt_length_of_peek_ne {p : Parser} (h : peek_char p ≠ '\x00') :
    p.current_char_i < p.source.length := by
  by_contra hn
  push_neg at hn
  exact h (by rw [peek_char, List.getD_eq_default _ _ hn])

theorem lt_length_of_peek_next_ne {p : Parser} (h : peek_next_char p ≠ '\x00') :
    p.current_char_i + 1 < p.source.length := by
  by_contra hn
  push_neg at hn
  exact h (by rw [peek_next_char, List.getD_eq_default _ _ hn])

theorem headD_ne_zero {l : List Char} (hne : l ≠ [])
    (h : ∀ c ∈ l, c ≠ '\x00') : l.headD '\x00' ≠ '\x00' := by
  cases l with
  | nil => exact absurd rfl hne
  | cons a t => simpa using h a (by simp)

theorem raw_body_acc_no_newline (c : Char) (acc : RawAcc) (h : c ≠ '\n') :
    (raw_body_acc c acc).string = acc.string ∧
    (raw_body_acc c acc).first_new_line = acc.first_new_line ∧
    (raw_body_acc c acc).last_new_line = acc.last_new_line := by
  simp only [raw_body_acc, if_neg h]
  split_ifs <;> simp

/-- Safety bound for the raw-string loop: with enough fuel the resulting
cursor never passes the end of the source, and when no error was reported
the loop stopped on a real terminator, at least two characters before the
end. -/
theorem raw_loop_bound : ∀ (fuel : Nat) (p : Parser) (acc : RawAcc),
    p.current_char_i ≤ p.source.length →
    p.has_error = false →
    p.source.length - p.current_char_i < fuel →
    (read_raw_loop fuel p acc).1.source = p.source ∧
    (read_raw_loop fuel p acc).1.current_char_i ≤ p.source.length ∧
    ((read_raw_loop fuel p acc).1.has_error = false →
       (read_raw_loop fuel p acc).1.current_char_i + 2 ≤ p.source.length) := by
  intro fuel
  induction fuel with
  | zero =>
    intro p acc hi h0 hf
    exact absurd hf (by omega)
  | succ f ih =>
    intro p acc hi h0 hf
    simp only [read_raw_loop]
    split
    · -- terminator found
      rename_i hterm
      obtain ⟨hc, hc1, hc2⟩ := hterm
      have hj : p.current_char_i < p.source.length :=
        lt_length_of_peek_ne (by rw [hc]; decide)
      have hj2 : ((next_char p).2).current_char_i + 1 < ((next_char p).2).source.length :=
        lt_length_of_peek_next_ne (by rw [hc2]; decide)
      simp only [next_char_snd_i, next_char_snd_source] at hj2
      refine ⟨by simp, by simp; omega, fun _ => by simp; omega⟩
    · split
      · -- carriage return skipped
        rename_i hterm hr
        have hj : p.current_char_i < p.source.length :=
          lt_length_of_peek_ne (by rw [hr]; decide)
        have hrec := ih (next_char p).2 acc (by simp; omega) (by simp [h0])
          (by simp; omega)
        simpa using hrec
      · split
        · -- EOF inside the literal: error, cursor pulled back one
          refine ⟨by simp [lex_error, print_error], ?_, ?_⟩
          · simp [lex_error, print_error]
            omega
          · intro hbad
            simp [lex_error, print_error] at hbad
        · -- regular character pushed
          rename_i hterm hr hzero
          push_neg at hzero
          have hj : p.current_char_i < p.source.length :=
            lt_length_of_peek_ne hzero.1
          have hrec := ih (next_char p).2
            { raw_body_acc (peek_char p) acc with
                string := (raw_body_acc (peek_char p) acc).string ++ [peek_char p] }
            (by simp; omega) (by simp [h0]) (by simp; omega)
          simpa using hrec

/-- Exact behaviour of the raw-string loop on content free of newlines,
carriage returns, quotes and NULs, followed by the closing `"""`: every
content character is pushed, the newline bookkeeping stays at `-1`, and the
loop stops right after the first closing quote. -/
theorem raw_loop_clean (rem : List Char) : ∀ (fuel : Nat) (p : Parser) (acc : RawAcc),
    p.source.drop p.current_char_i = rem ++ rawQuotes →
    (∀ c ∈ rem, c ≠ '\n' ∧ c ≠ '\r' ∧ c ≠ '\x22' ∧ c ≠ '\x00') →
    acc.first_new_line = -1 →
    acc.last_new_line = -1 →
    rem.length < fuel →
    ∃ acc2 : RawAcc,
      read_raw_loop fuel p acc =
        ({ p with current_char_i := p.current_char_i + rem.length + 1 }, acc2) ∧
      acc2.string = acc.string ++ rem ∧
      acc2.first_new_line = -1 ∧
      acc2.last_new_line = -1 := by
  induction rem with
  | nil =>
    intro fuel p acc hdrop hclean hfst hlst hfuel
    cases fuel with
    | zero => exact absurd hfuel (by omega)
    | succ f =>
      have hd : p.source.drop p.current_char_i =
          '\x22' :: '\x22' :: '\x22' :: [] := by simpa [rawQuotes] using hdrop
      have hc : peek_char p = '\x22' := peek_char_of_drop hd
      have hstate : (next_char p).2 = { p with current_char_i := p.current_char_i + 1 } :=
        next_char_snd_of_ne (by rw [hc]; decide)
      have hd1 : p.source.drop (p.current_char_i + 1) = '\x22' :: '\x22' :: [] :=
        drop_succ_of_eq_cons hd
      have hc1 : peek_char { p with current_char_i := p.current_char_i + 1 } = '\x22' := by
        rw [peek_char_eq]
        show (p.source.drop (p.current_char_i + 1)).headD '\x00' = _
        rw [hd1]
        rfl
      have hd2 : p.source.drop (p.current_char_i + 1 + 1) = '\x22' :: [] :=
        drop_succ_of_eq_cons hd1
      have hc2 : peek_next_char { p with current_char_i := p.current_char_i + 1 } = '\x22' := by
        rw [peek_next_char_eq]
        show (p.source.drop (p.current_char_i + 1 + 1)).headD '\x00' = _
        rw [hd2]
        rfl
      refine ⟨acc, ?_, by simp, hfst, hlst⟩
      simp [read_raw_loop, hstate, hc, hc1, hc2]
  | cons c rem' ih =>
    intro fuel p acc hdrop hclean hfst hlst hfuel
    cases fuel with
    | zero => exact absurd hfuel (by omega)
    | succ f =>
      have hd : p.source.drop p.current_char_i = c :: (rem' ++ rawQuotes) := by
        simpa using hdrop
      obtain ⟨hcn, hcr, hcq, hcz⟩ := hclean c (by simp)
      have hc : peek_char p = c := peek_char_of_drop hd
      have hstate : (next_char p).2 = { p with current_char_i := p.current_char_i + 1 } :=
        next_char_snd_of_ne (by rw [hc]; exact hcn)
      have hd1 : p.source.drop (p.current_char_i + 1) = rem' ++ rawQuotes :=
        drop_succ_of_eq_cons hd
      have htail : ∀ x ∈ rem' ++ rawQuotes, x ≠ '\x00' := by
        intro x hx
        rcases List.mem_append.mp hx with hx | hx
        · exact (hclean x (by simp [hx])).2.2.2
        · simp [rawQuotes] at hx
          rw [hx]
          decide
      have hc1 : peek_char (next_char p).2 = (rem' ++ rawQuotes).headD '\x00' := by
        rw [hstate, peek_char_eq]
        show (p.source.drop (p.current_char_i + 1)).headD '\x00' = _
        rw [hd1]
      have hd2 : p.source.drop (p.current_char_i + 1 + 1) = (rem' ++ rawQuotes).drop 1 := by
        have := List.drop_drop 1 (p.current_char_i + 1) p.source
        rw [hd1] at this
        exact this.symm
      have hc2 : peek_next_char (next_char p).2 = ((rem' ++ rawQuotes).drop 1).headD '\x00' := by
        rw [hstate, peek_next_char_eq]
        show (p.source.drop (p.current_char_i + 1 + 1)).headD '\x00' = _
        rw [hd2]
      have hz1 : (rem' ++ rawQuotes).headD '\x00' ≠ '\x00' :=
        headD_ne_zero (by simp [rawQuotes]) htail
      have hz2 : ((rem' ++ rawQuotes).drop 1).headD '\x00' ≠ '\x00' := by
        refine headD_ne_zero ?_ ?_
        · have : ((rem' ++ rawQuotes).drop 1).length = rem'.length + 2 := by
            simp [rawQuotes]
          intro hbad
          rw [hbad] at this
          simp at this
        · intro x hx
          exact htail x (List.mem_of_mem_drop hx)
      have hbody := raw_body_acc_no_newline c acc hcn
      have hdrop2 : ((next_char p).2).source.drop ((next_char p).2).current_char_i =
          rem' ++ rawQuotes := by
        simp only [next_char_snd_source, next_char_snd_i]
        exact hd1
      obtain ⟨acc2, heq, hstr, hf2, hl2⟩ := ih f (next_char p).2
        { raw_body_acc c acc with string := (raw_body_acc c acc).string ++ [c] }
        hdrop2 (fun x hx => hclean x (by simp [hx])) (by simp [hbody.2.1, hfst])
        (by simp [hbody.2.2, hlst]) (by simp at hfuel ⊢; omega)
      refine ⟨acc2, ?_, ?_, hf2, hl2⟩
      · simp only [read_raw_loop, hc, hc1, hc2]
        rw [if_neg (fun hx => hcq hx.1), if_neg hcr,
          if_neg (by push_neg; exact ⟨hcz, hz1, hz2⟩), heq]
        have harith : ((next_char p).2).current_char_i + rem'.length + 1 =
            p.current_char_i + (c :: rem').length + 1 := by
          simp
          omega
        rw [hstate] at harith ⊢
        simp only [harith]
      · rw [hstr, hbody.1]
        simp
theorem closeScan_inv {n : Nat} {cs : List Char} {k : Nat}
    (h : CloseScan (n + 1) cs k) :
    (∃ cs2 k2, cs = '/' :: '*' :: cs2 ∧ CloseScan (n + 2) cs2 k2 ∧ k = k2 + 2) ∨
    (∃ cs2 k2, cs = '*' :: '/' :: cs2 ∧ CloseScan n cs2 k2 ∧ k = k2 + 2) ∨
    (∃ c cs2 k2, cs = c :: cs2 ∧ c ≠ '\x00' ∧
      ¬ (c = '/' ∧ cs2.headD '\x00' = '*') ∧ ¬ (c = '*' ∧ cs2.headD '\x00' = '/') ∧
      CloseScan (n + 1) cs2 k2 ∧ k = k2 + 1) := by
  cases h with
  | openC n2 cs2 k2 h2 => exact Or.inl ⟨cs2, k2, rfl, h2, rfl⟩
  | closeC n2 cs2 k2 h2 => exact Or.inr (Or.inl ⟨cs2, k2, rfl, h2, rfl⟩)
  | other n2 cs2 k2 c hc hno hnc h2 =>
    exact Or.inr (Or.inr ⟨c, cs2, k2, rfl, hc, hno, hnc, h2, rfl⟩)

/-! ## Block-comment loop lemmas -/

theorem sbc_loop_closes {n : Nat} {cs : List Char} {k : Nat}
    (h : CloseScan n cs k) :
    ∀ (fuel : Nat) (p : Parser),
      p.source.drop p.current_char_i = cs →
      p.source.length - p.current_char_i < fuel →
      (skip_block_comment_loop fuel p n).current_char_i = p.current_char_i + k ∧
      (skip_block_comment_loop fuel p n).has_error = p.has_error ∧
      (skip_block_comment_loop fuel p n).source = p.source := by
  induction h with
  | done cs =>
    intro fuel p hdrop hfuel
    cases fuel with
    | zero => exact absurd hfuel (by omega)
    | succ f =>
      simp only [skip_block_comment_loop, if_pos rfl]
      exact ⟨rfl, rfl, rfl⟩
  | openC n cs k hcs ih =>
    intro fuel p hdrop hfuel
    cases fuel with
    | zero => exact absurd hfuel (by omega)
    | succ f =>
      have hp : peek_char p = '/' := peek_char_of_drop hdrop
      have hpn : peek_next_char p = '*' := by
        rw [peek_next_char_of_drop hdrop]; rfl
      have hlencs := congrArg List.length hdrop
      simp at hlencs
      have hstep : skip_block_comment_loop (f + 1) p (n + 1) =
          skip_block_comment_loop f (next_char (next_char p).2).2 (n + 1 + 1) := by
        simp only [skip_block_comment_loop]
        rw [if_neg (Nat.succ_ne_zero n), if_neg (by rw [hp]; decide),
          if_pos ⟨hp, hpn⟩]
      have hq2 : ((next_char (next_char p).2).2).current_char_i =
          p.current_char_i + 2 := by simp
      have hdropq : ((next_char (next_char p).2).2).source.drop
          ((next_char (next_char p).2).2).current_char_i = cs := by
        rw [hq2]
        simp only [next_char_snd_source]
        exact drop_succ_of_eq_cons (drop_succ_of_eq_cons hdrop)
      obtain ⟨h1, h2, h3⟩ := ih f (next_char (next_char p).2).2 hdropq
        (by simp; omega)
      refine ⟨?_, ?_, ?_⟩
      · rw [hstep, h1, hq2]; omega
      · rw [hstep, h2]; simp
      · rw [hstep, h3]; simp
  | closeC n cs k hcs ih =>
    intro fuel p hdrop hfuel
    cases fuel with
    | zero => exact absurd hfuel (by omega)
    | succ f =>
      have hp : peek_char p = '*' := peek_char_of_drop hdrop
      have hpn : peek_next_char p = '/' := by
        rw [peek_next_char_of_drop hdrop]; rfl
      have hlencs := congrArg List.length hdrop
      simp at hlencs
      have hstep : skip_block_comment_loop (f + 1) p (n + 1) =
          skip_block_comment_loop f (next_char (next_char p).2).2 (n + 1 - 1) := by
        simp only [skip_block_comment_loop]
        rw [if_neg (Nat.succ_ne_zero n), if_neg (by rw [hp]; decide),
          if_neg (by rw [hp]; rintro ⟨hbad, _⟩; exact absurd hbad (by decide)),
          if_pos ⟨hp, hpn⟩]
      have hq2 : ((next_char (next_char p).2).2).current_char_i =
          p.current_char_i + 2 := by simp
      have hdropq : ((next_char (next_char p).2).2).source.drop
          ((next_char (next_char p).2).2).current_char_i = cs := by
        rw [hq2]
        simp only [next_char_snd_source]
        exact drop_succ_of_eq_cons (drop_succ_of_eq_cons hdrop)
      obtain ⟨h1, h2, h3⟩ := ih f (next_char (next_char p).2).2 hdropq
        (by simp; omega)
      rw [Nat.add_sub_cancel] at hstep
      refine ⟨?_, ?_, ?_⟩
      · rw [hstep, h1, hq2]; omega
      · rw [hstep, h2]; simp
      · rw [hstep, h3]; simp
  | other n cs k c hc hno hnc hcs ih =>
    intro fuel p hdrop hfuel
    cases fuel with
    | zero => exact absurd hfuel (by omega)
    | succ f =>
      have hp : peek_char p = c := peek_char_of_drop hdrop
      have hpn : peek_next_char p = cs.headD '\x00' := peek_next_char_of_drop hdrop
      have hlencs := congrArg List.length hdrop
      simp at hlencs
      have hstep : skip_block_comment_loop (f + 1) p (n + 1) =
          skip_block_comment_loop f (next_char p).2 (n + 1) := by
        simp only [skip_block_comment_loop]
        rw [if_neg (Nat.succ_ne_zero n), if_neg (by rw [hp]; exact hc),
          if_neg (by rw [hp, hpn]; exact hno), if_neg (by rw [hp, hpn]; exact hnc)]
      have hdropq : ((next_char p).2).source.drop
          ((next_char p).2).current_char_i = cs := by
        simp only [next_char_snd_source, next_char_snd_i]
        exact drop_succ_of_eq_cons hdrop
      obtain ⟨h1, h2, h3⟩ := ih f (next_char p).2 hdropq (by simp; omega)
      refine ⟨?_, ?_, ?_⟩
      · rw [hstep, h1]; simp; omega
      · rw [hstep, h2]; simp
      · rw [hstep, h3]; simp

theorem sbc_loop_stuck : ∀ (fuel n : Nat) (p : Parser),
    p.current_char_i ≤ p.source.length →
    p.source.length - p.current_char_i < fuel →
    (∀ k, ¬ CloseScan n (p.source.drop p.current_char_i) k) →
    (skip_block_comment_loop fuel p n).has_error = true ∧
    (skip_block_comment_loop fuel p n).current_char_i ≤ p.source.length ∧
    (skip_block_comment_loop fuel p n).source = p.source := by
  intro fuel
  induction fuel with
  | zero =>
    intro n p hi hf hns
    exact absurd hf (by omega)
  | succ f ih =>
    intro n p hi hf hns
    cases n with
    | zero => exact absurd (CloseScan.done _) (hns 0)
    | succ n' =>
      cases hcs : p.source.drop p.current_char_i with
      | nil =>
        have hp : peek_char p = '\x00' := peek_char_of_drop_nil hcs
        simp only [skip_block_comment_loop]
        rw [if_neg (Nat.succ_ne_zero n'), if_pos hp]
        exact ⟨lex_error_err p _, by rw [lex_error_i]; exact hi, lex_error_source p _⟩
      | cons a t =>
        have hlent := congrArg List.length hcs
        simp at hlent
        have hp : peek_char p = a := peek_char_of_drop hcs
        have hpn : peek_next_char p = t.headD '\x00' := peek_next_char_of_drop hcs
        by_cases hc0 : a = '\x00'
        · simp only [skip_block_comment_loop]
          rw [if_neg (Nat.succ_ne_zero n'), if_pos (by rw [hp, hc0])]
          exact ⟨lex_error_err p _, by rw [lex_error_i]; exact hi, lex_error_source p _⟩
        · by_cases hopen : a = '/' ∧ t.headD '\x00' = '*'
          · obtain ⟨hc, ht⟩ := hopen
            cases t with
            | nil => exact absurd ht (by decide)
            | cons b t2 =>
              simp only [List.headD_cons] at ht
              subst hc
              subst ht
              have hlen2 : p.source.length - p.current_char_i = t2.length + 2 := by
                have h := congrArg List.length hcs
                simp at h
                omega
              have hstep : skip_block_comment_loop (f + 1) p (n' + 1) =
                  skip_block_comment_loop f (next_char (next_char p).2).2 (n' + 1 + 1) := by
                simp only [skip_block_comment_loop]
                rw [if_neg (Nat.succ_ne_zero n'), if_neg (by rw [hp]; decide),
                  if_pos ⟨hp, by rw [hpn]; rfl⟩]
              have hq2 : ((next_char (next_char p).2).2).current_char_i =
                  p.current_char_i + 2 := by simp
              have hdropq : ((next_char (next_char p).2).2).source.drop
                  ((next_char (next_char p).2).2).current_char_i = t2 := by
                rw [hq2]
                simp only [next_char_snd_source]
                exact drop_succ_of_eq_cons (drop_succ_of_eq_cons hcs)
              have hns' : ∀ k, ¬ CloseScan (n' + 1 + 1) t2 k := by
                intro k hk
                exact hns (k + 2) (by rw [hcs]; exact CloseScan.openC n' t2 k hk)
              obtain ⟨h1, h2, h3⟩ := ih (n' + 1 + 1) (next_char (next_char p).2).2
                (by simp; omega) (by simp; omega) (by rw [hdropq]; exact hns')
              refine ⟨?_, ?_, ?_⟩
              · rw [hstep]; exact h1
              · rw [hstep]; simpa using h2
              · rw [hstep]; simpa using h3
          · by_cases hclose : a = '*' ∧ t.headD '\x00' = '/'
            · obtain ⟨hc, ht⟩ := hclose
              cases t with
              | nil => exact absurd ht (by decide)
              | cons b t2 =>
                simp only [List.headD_cons] at ht
                subst hc
                subst ht
                have hlen2 : p.source.length - p.current_char_i = t2.length + 2 := by
                  have h := congrArg List.length hcs
                  simp at h
                  omega
                have hstep : skip_block_comment_loop (f + 1) p (n' + 1) =
                    skip_block_comment_loop f (next_char (next_char p).2).2 (n' + 1 - 1) := by
                  simp only [skip_block_comment_loop]
                  rw [if_neg (Nat.succ_ne_zero n'), if_neg (by rw [hp]; decide),
                    if_neg (by rw [hp]; rintro ⟨hbad, _⟩; exact absurd hbad (by decide)),
                    if_pos ⟨hp, by rw [hpn]; rfl⟩]
                rw [Nat.add_sub_cancel] at hstep
                have hq2 : ((next_char (next_char p).2).2).current_char_i =
                    p.current_char_i + 2 := by simp
                have hdropq : ((next_char (next_char p).2).2).source.drop
                    ((next_char (next_char p).2).2).current_char_i = t2 := by
                  rw [hq2]
                  simp only [next_char_snd_source]
                  exact drop_succ_of_eq_cons (drop_succ_of_eq_cons hcs)
                have hns' : ∀ k, ¬ CloseScan n' t2 k := by
                  intro k hk
                  exact hns (k + 2) (by rw [hcs]; exact CloseScan.closeC n' t2 k hk)
                obtain ⟨h1, h2, h3⟩ := ih n' (next_char (next_char p).2).2
                  (by simp; omega) (by simp; omega) (by rw [hdropq]; exact hns')
                refine ⟨?_, ?_, ?_⟩
                · rw [hstep]; exact h1
                · rw [hstep]; simpa using h2
                · rw [hstep]; simpa using h3
            · have hstep : skip_block_comment_loop (f + 1) p (n' + 1) =
                  skip_block_comment_loop f (next_char p).2 (n' + 1) := by
                simp only [skip_block_comment_loop]
                rw [if_neg (Nat.succ_ne_zero n'), if_neg (by rw [hp]; exact hc0),
                  if_neg (by rw [hp, hpn]; exact hopen),
                  if_neg (by rw [hp, hpn]; exact hclose)]
              have hdropq : ((next_char p).2).source.drop
                  ((next_char p).2).current_char_i = t := by
                simp only [next_char_snd_source, next_char_snd_i]
                exact drop_succ_of_eq_cons hcs
              have hns' : ∀ k, ¬ CloseScan (n' + 1) t k := by
                intro k hk
                exact hns (k + 1)
                  (by rw [hcs]; exact CloseScan.other n' t k a hc0 hopen hclose hk)
              obtain ⟨h1, h2, h3⟩ := ih (n' + 1) (next_char p).2
                (by simp; omega) (by simp; omega) (by rw [hdropq]; exact hns')
              refine ⟨?_, ?_, ?_⟩
              · rw [hstep]; exact h1
              · rw [hstep]; simpa using h2
              · rw [hstep]; simpa using h3

/-! ## Claim theorems -/

/-- Claim C2: for comment text whose `/*`/`*/` pairs balance under the
counter-based nesting rule (`CloseScan`), `skip_block_comment` consumes
exactly through the matching close — the cursor lands on the first
character after it — and reports no error; when there are more opens than
closes before end of input, it sets the error flag (via the spec-modelled
`print_error` sink) and the cursor never moves past the source's end. -/
theorem skip_block_comment_c2 (p : Parser) (h0 : p.has_error = false)
    (hi : p.current_char_i ≤ p.source.length) :
    (∀ k, CloseScan 1 (p.source.drop p.current_char_i) k →
       (skip_block_comment p).current_char_i = p.current_char_i + k ∧
       (skip_block_comment p).has_error = false ∧
       (skip_block_comment p).source = p.source) ∧
    ((∀ k, ¬ CloseScan 1 (p.source.drop p.current_char_i) k) →
       (skip_block_comment p).has_error = true ∧
       (skip_block_comment p).current_char_i ≤ p.source.length ∧
       (skip_block_comment p).source = p.source) := by
  constructor
  · intro k hk
    obtain ⟨h1, h2, h3⟩ := sbc_loop_closes hk (p.source.length + 1) p rfl (by omega)
    exact ⟨h1, h2.trans h0, h3⟩
  · intro hk
    exact sbc_loop_stuck (p.source.length + 1) 1 p hi (by omega) hk

/-- Claim C2 witness: for the balanced comment body `b*/X` (one level open)
the cursor stops exactly on `X` (position 3 from 0) with no error; for the
unbalanced body `!` (the initial open is never closed) the error flag is
set and the cursor stays within the 1-character source. -/
theorem skip_block_comment_c2_witness :
    (skip_block_comment ⟨['b', '*', '/', 'X'], 0, 1, false⟩).current_char_i = 3 ∧
    (skip_block_comment ⟨['b', '*', '/', 'X'], 0, 1, false⟩).has_error = false ∧
    (skip_block_comment ⟨['!'], 0, 1, false⟩).has_error = true ∧
    (skip_block_comment ⟨['!'], 0, 1, false⟩).current_char_i ≤ 1 := by
  have hscan : CloseScan 1 ['b', '*', '/', 'X'] 3 := by
    have h2 : CloseScan 1 ('*' :: '/' :: ['X']) 2 :=
      CloseScan.closeC 0 ['X'] 0 (CloseScan.done ['X'])
    exact CloseScan.other 0 ('*' :: '/' :: ['X']) 2 'b' (by decide) (by decide)
      (by decide) h2
  have h1 := (skip_block_comment_c2 ⟨['b', '*', '/', 'X'], 0, 1, false⟩ rfl
    (by decide)).1 3 hscan
  have hnone : ∀ k, ¬ CloseScan 1 (List.drop 0 ['!']) k := by
    intro k hk
    simp only [List.drop_zero] at hk
    rcases closeScan_inv hk with ⟨cs2, k2, he, _, _⟩ | ⟨cs2, k2, he, _, _⟩ |
      ⟨c, cs2, k2, he, _, _, _, h2, _⟩
    · injection he with hh _
      exact absurd hh (by decide)
    · injection he with hh _
      exact absurd hh (by decide)
    · injection he with hh he2
      subst he2
      rcases closeScan_inv h2 with ⟨cs3, k3, he3, _, _⟩ | ⟨cs3, k3, he3, _, _⟩ |
        ⟨c3, cs3, k3, he3, _, _, _, _, _⟩ <;> exact absurd he3 (by simp)
  have h2 := (skip_block_comment_c2 ⟨['!'], 0, 1, false⟩ rfl (by decide)).2 hnone
  exact ⟨h1.1, h1.2.1, h2.1, h2.2.1⟩

/-- Claim C1 counterexample: lexing the raw string literal
`"""  \n  text\n  """` does not yield the claimed content `text\n  ` —
the two-space indentation of the `text` line is part of the literal. -/
theorem raw_string_c1_counterexample :
    (read_raw_string ⟨("\x22\x22\x22  \n  text\n  \x22\x22\x22").toList, 1, 1, false⟩).2 ≠
      ("text\n  ").toList := by
  decide

/-- Claim C1 (amended): lexing the raw string literal `"""  \n  text\n  """`,
whose first content line is pure whitespace, strips that leading line up to
and including its newline, yielding literal content `  text\n  `: the
indentation of the following line is kept, and the trailing
whitespace-only line is not stripped (the code's `skip_end` bookkeeping is
overwritten to `1` by the whitespace branch, so the symmetric last-line
trim does not fire here).  No error is reported and the cursor stops right
after the closing delimiter. -/
theorem raw_string_c1_amended_trim :
    (read_raw_string ⟨("\x22\x22\x22  \n  text\n  \x22\x22\x22").toList, 1, 1, false⟩).2 =
      ("  text\n  ").toList ∧
    (read_raw_string ⟨("\x22\x22\x22  \n  text\n  \x22\x22\x22").toList, 1, 1, false⟩).1.has_error =
      false ∧
    (read_raw_string ⟨("\x22\x22\x22  \n  text\n  \x22\x22\x22").toList, 1, 1, false⟩).1.current_char_i =
      ("\x22\x22\x22  \n  text\n  \x22\x22\x22").toList.length := by
  refine ⟨by decide, by decide, by decide⟩

/-- Claim C3 counterexample: on the unterminated raw literal whose source
is just the opening `"""` (nothing follows), the lexer does report the
lexical error, but `current_char_i` ends at 5, exceeding the 3-character
source buffer — the two delimiter-consuming advances after the loop run
unconditionally, so the claimed bound `cursor ≤ length` is false. -/
theorem raw_string_c3_counterexample :
    (read_raw_string ⟨['\x22', '\x22', '\x22'], 1, 1, false⟩).1.has_error = true ∧
    (read_raw_string ⟨['\x22', '\x22', '\x22'], 1, 1, false⟩).1.current_char_i = 5 ∧
    ¬ ((read_raw_string ⟨['\x22', '\x22', '\x22'], 1, 1, false⟩).1.current_char_i ≤
        (['\x22', '\x22', '\x22'] : List Char).length) := by
  refine ⟨by decide, by decide, by decide⟩

theorem read_raw_string_fst (p : Parser) :
    (read_raw_string p).1 =
      (next_char (next_char (read_raw_loop
        (((next_char (next_char p).2).2).source.length + 2)
        ((next_char (next_char p).2).2) ⟨[], 0, -1, -1, -1⟩).1).2).2 := by
  simp only [read_raw_string]

/-- Claim C3 (amended): for a raw literal scan started in bounds (at least
the two remaining delimiter quotes ahead), the cursor after
`read_raw_string` exceeds the source length by at most 2 — the overshoot
comes from the two unconditional delimiter-consuming advances after an
EOF error — and whenever no lexical error was reported the cursor is
within the source length. -/
theorem raw_string_c3_amended_bound (p : Parser)
    (h2 : p.current_char_i + 2 ≤ p.source.length)
    (h0 : p.has_error = false) :
    (read_raw_string p).1.current_char_i ≤ p.source.length + 2 ∧
    ((read_raw_string p).1.has_error = false →
       (read_raw_string p).1.current_char_i ≤ p.source.length) := by
  obtain ⟨hs, hcur, himp⟩ := raw_loop_bound
    (((next_char (next_char p).2).2).source.length + 2)
    ((next_char (next_char p).2).2) ⟨[], 0, -1, -1, -1⟩
    (by simp; omega) (by simp [h0]) (by simp; omega)
  simp only [next_char_snd_source] at hcur himp
  constructor
  · rw [read_raw_string_fst]
    simp only [next_char_snd_i, next_char_snd_source]
    omega
  · rw [read_raw_string_fst]
    simp only [next_char_snd_i, next_char_snd_err, next_char_snd_source]
    intro hfe
    have := himp hfe
    omega

/-- Claim C3 witness: for the well-formed literal `"""a"""` entered at the
second quote, the cursor bound holds: it stays within length + 2, and with
no error reported it is within the 7-character length. -/
theorem raw_string_c3_witness :
    (read_raw_string ⟨['\x22', '\x22', '\x22', 'a', '\x22', '\x22', '\x22'], 1, 1,
        false⟩).1.current_char_i ≤
      (['\x22', '\x22', '\x22', 'a', '\x22', '\x22', '\x22'] : List Char).length + 2 ∧
    ((read_raw_string ⟨['\x22', '\x22', '\x22', 'a', '\x22', '\x22', '\x22'], 1, 1,
        false⟩).1.has_error = false →
      (read_raw_string ⟨['\x22', '\x22', '\x22', 'a', '\x22', '\x22', '\x22'], 1, 1,
          false⟩).1.current_char_i ≤
        (['\x22', '\x22', '\x22', 'a', '\x22', '\x22', '\x22'] : List Char).length) :=
  raw_string_c3_amended_bound
    ⟨['\x22', '\x22', '\x22', 'a', '\x22', '\x22', '\x22'], 1, 1, false⟩
    (by decide) rfl

/-- Claim C7 counterexample: in the raw literal `"""a\rb"""`, whose content
contains no newline, the token value is not exactly the characters between
the delimiters: the carriage return is silently dropped (the `'\r'` arm of
the loop skips the push), so the value is `ab`, not `a\rb`. -/
theorem raw_string_c7_counterexample :
    (read_raw_string ⟨['\x22', '\x22', '\x22', 'a', '\x0d', 'b', '\x22', '\x22', '\x22'],
        1, 1, false⟩).2 = ['a', 'b'] ∧
    (read_raw_string ⟨['\x22', '\x22', '\x22', 'a', '\x0d', 'b', '\x22', '\x22', '\x22'],
        1, 1, false⟩).2 ≠ ['a', '\x0d', 'b'] := by
  refine ⟨by decide, by decide⟩

/-- Claim C7 (amended): for a raw literal whose content contains no newline
and also no carriage return (and, being a single well-formed literal, no
quote and no NUL), `read_raw_string` performs no trimming: the token value
is exactly the characters between the delimiters (`offset` 0, full
accumulated length), no error is reported, and the cursor stops right
after the closing delimiter. -/
theorem raw_string_c7_single_line (content : List Char)
    (h : ∀ c ∈ content, c ≠ '\n' ∧ c ≠ '\x0d' ∧ c ≠ '\x22' ∧ c ≠ '\x00') :
    (read_raw_string ⟨rawQuotes ++ content ++ rawQuotes, 1, 1, false⟩).2 = content ∧
    (read_raw_string ⟨rawQuotes ++ content ++ rawQuotes, 1, 1, false⟩).1.has_error = false ∧
    (read_raw_string ⟨rawQuotes ++ content ++ rawQuotes, 1, 1, false⟩).1.current_char_i =
      (rawQuotes ++ content ++ rawQuotes).length := by
  have hsrc : rawQuotes ++ content ++ rawQuotes =
      '\x22' :: '\x22' :: '\x22' :: (content ++ rawQuotes) := by simp [rawQuotes]
  rw [hsrc]
  have e1 : peek_char ⟨'\x22' :: '\x22' :: '\x22' :: (content ++ rawQuotes), 1, 1, false⟩ =
      '\x22' := by
    simp [peek_char]
  have hn1 : (next_char ⟨'\x22' :: '\x22' :: '\x22' :: (content ++ rawQuotes), 1, 1,
      false⟩).2 = ⟨'\x22' :: '\x22' :: '\x22' :: (content ++ rawQuotes), 2, 1, false⟩ := by
    rw [next_char_snd_of_ne (by rw [e1]; decide)]
  have e2 : peek_char ⟨'\x22' :: '\x22' :: '\x22' :: (content ++ rawQuotes), 2, 1, false⟩ =
      '\x22' := by
    simp [peek_char]
  have hn2 : (next_char ⟨'\x22' :: '\x22' :: '\x22' :: (content ++ rawQuotes), 2, 1,
      false⟩).2 = ⟨'\x22' :: '\x22' :: '\x22' :: (content ++ rawQuotes), 3, 1, false⟩ := by
    rw [next_char_snd_of_ne (by rw [e2]; decide)]
  have hdrop3 : (('\x22' :: '\x22' :: '\x22' :: (content ++ rawQuotes)) : List Char).drop 3 =
      content ++ rawQuotes := rfl
  obtain ⟨acc2, heq, hstr, hf2, hl2⟩ := raw_loop_clean content
    ((('\x22' :: '\x22' :: '\x22' :: (content ++ rawQuotes)) : List Char).length + 2)
    ⟨'\x22' :: '\x22' :: '\x22' :: (content ++ rawQuotes), 3, 1, false⟩
    ⟨[], 0, -1, -1, -1⟩ hdrop3 h rfl rfl (by simp [rawQuotes]; omega)
  have heq2 : read_raw_loop
      ((('\x22' :: '\x22' :: '\x22' :: (content ++ rawQuotes)) : List Char).length + 2)
      ⟨'\x22' :: '\x22' :: '\x22' :: (content ++ rawQuotes), 3, 1, false⟩
      ⟨[], 0, -1, -1, -1⟩ =
      (⟨'\x22' :: '\x22' :: '\x22' :: (content ++ rawQuotes), 3 + content.length + 1, 1,
        false⟩, acc2) := heq
  have hdA : (('\x22' :: '\x22' :: '\x22' :: (content ++ rawQuotes)) : List Char).drop
      (3 + content.length) = rawQuotes := drop_add_of_drop hdrop3
  have hdB : (('\x22' :: '\x22' :: '\x22' :: (content ++ rawQuotes)) : List Char).drop
      (3 + content.length + 1) = '\x22' :: '\x22' :: [] :=
    drop_succ_of_eq_cons (by rw [hdA]; rfl)
  have hdC : (('\x22' :: '\x22' :: '\x22' :: (content ++ rawQuotes)) : List Char).drop
      (3 + content.length + 1 + 1) = '\x22' :: [] := drop_succ_of_eq_cons hdB
  have eA : peek_char ⟨'\x22' :: '\x22' :: '\x22' :: (content ++ rawQuotes),
      3 + content.length + 1, 1, false⟩ = '\x22' := peek_char_of_drop hdB
  have hn3 : (next_char ⟨'\x22' :: '\x22' :: '\x22' :: (content ++ rawQuotes),
      3 + content.length + 1, 1, false⟩).2 =
      ⟨'\x22' :: '\x22' :: '\x22' :: (content ++ rawQuotes),
        3 + content.length + 1 + 1, 1, false⟩ := by
    rw [next_char_snd_of_ne (by rw [eA]; decide)]
  have eB : peek_char ⟨'\x22' :: '\x22' :: '\x22' :: (content ++ rawQuotes),
      3 + content.length + 1 + 1, 1, false⟩ = '\x22' := peek_char_of_drop hdC
  have hn4 : (next_char ⟨'\x22' :: '\x22' :: '\x22' :: (content ++ rawQuotes),
      3 + content.length + 1 + 1, 1, false⟩).2 =
      ⟨'\x22' :: '\x22' :: '\x22' :: (content ++ rawQuotes),
        3 + content.length + 1 + 1 + 1, 1, false⟩ := by
    rw [next_char_snd_of_ne (by rw [eB]; decide)]
  have hfull : read_raw_string
      ⟨'\x22' :: '\x22' :: '\x22' :: (content ++ rawQuotes), 1, 1, false⟩ =
      (⟨'\x22' :: '\x22' :: '\x22' :: (content ++ rawQuotes),
        3 + content.length + 1 + 1 + 1, 1, false⟩, content) := by
    simp only [read_raw_string, hn1, hn2]
    rw [heq2]
    dsimp only
    rw [hn3, hn4, hf2, hl2, hstr]
    simp
    rw [if_neg (show ¬ ((content.length : Int) < 0) by omega)]
    simp
  rw [hfull]
  refine ⟨rfl, rfl, ?_⟩
  simp [rawQuotes]
  omega

/-- Claim C7 witness: the single-line literal `"""ab"""` lexes to exactly
`ab`, with no error, offset 0 and full length, the cursor ending after the
closing delimiter. -/
theorem raw_string_c7_witness :
    (read_raw_string ⟨rawQuotes ++ ['a', 'b'] ++ rawQuotes, 1, 1, false⟩).2 = ['a', 'b'] ∧
    (read_raw_string ⟨rawQuotes ++ ['a', 'b'] ++ rawQuotes, 1, 1, false⟩).1.has_error =
      false ∧
    (read_raw_string ⟨rawQuotes ++ ['a', 'b'] ++ rawQuotes, 1, 1, false⟩).1.current_char_i =
      (rawQuotes ++ ['a', 'b'] ++ rawQuotes).length :=
  raw_string_c7_single_line ['a', 'b'] (by decide)

/-- Claim C5: `read_number` stops scanning exactly at the boundary of a
decimal digit run `d` when the character after it is a non-digit that is
neither `.` nor `e`/`E`; and a `.` after the run is consumed only when a
digit immediately follows, so a method-call dot (as in `123.abs`) also
leaves the cursor exactly at the end of `d`.  In both cases no lexical
error is reported. -/
theorem read_number_c5_boundary (p : Parser) (d : List Char) (x : Char) (rest : List Char)
    (hdrop : p.source.drop p.current_char_i = d ++ x :: rest)
    (hd : ∀ c ∈ d, is_digit c = true)
    (hx : is_digit x = false) :
    ((x ≠ '.' ∧ x ≠ 'e' ∧ x ≠ 'E') →
        (read_number p).current_char_i = p.current_char_i + d.length ∧
        (read_number p).has_error = p.has_error) ∧
    ((x = '.' ∧ is_digit (rest.headD '\x00') = false) →
        (read_number p).current_char_i = p.current_char_i + d.length ∧
        (read_number p).has_error = p.has_error) := by
  have hlen : d.length ≤ p.source.length := length_le_of_drop hdrop
  have hskip : skip_digits (p.source.length + 1) p =
      { p with current_char_i := p.current_char_i + d.length } :=
    skip_digits_spec d _ p (x :: rest) hdrop hd (by simpa using hx) (by omega)
  have hdq : ({ p with current_char_i := p.current_char_i + d.length } : Parser).source.drop
      (p.current_char_i + d.length) = x :: rest := drop_add_of_drop hdrop
  have hpq : peek_char { p with current_char_i := p.current_char_i + d.length } = x :=
    peek_char_of_drop hdq
  constructor
  · rintro ⟨hx1, hx2, hx3⟩
    have hfrac : read_number_frac
        { p with current_char_i := p.current_char_i + d.length } =
        { p with current_char_i := p.current_char_i + d.length } := by
      rw [read_number_frac, if_neg]
      intro hcc
      exact hx1 (hpq ▸ hcc.1)
    have hne : peek_char { p with current_char_i := p.current_char_i + d.length } ≠ 'e' := by
      rw [hpq]; exact hx2
    have hnE : peek_char { p with current_char_i := p.current_char_i + d.length } ≠ 'E' := by
      rw [hpq]; exact hx3
    have hmc1 : match_char { p with current_char_i := p.current_char_i + d.length } 'e' =
        (false, { p with current_char_i := p.current_char_i + d.length }) := by
      rw [match_char, if_pos hne]
    have hmc2 : match_char { p with current_char_i := p.current_char_i + d.length } 'E' =
        (false, { p with current_char_i := p.current_char_i + d.length }) := by
      rw [match_char, if_pos hnE]
    rw [read_number, hskip, hfrac]
    simp only [read_number_exp, hmc1, hmc2]
    exact ⟨trivial, trivial⟩
  · rintro ⟨hxe, hrest⟩
    have hpn : peek_next_char { p with current_char_i := p.current_char_i + d.length } =
        rest.headD '\x00' := peek_next_char_of_drop hdq
    have hfrac : read_number_frac
        { p with current_char_i := p.current_char_i + d.length } =
        { p with current_char_i := p.current_char_i + d.length } := by
      rw [read_number_frac, if_neg]
      intro hcc
      rw [hpn, hrest] at hcc
      exact absurd hcc.2 (by decide)
    have hne : peek_char { p with current_char_i := p.current_char_i + d.length } ≠ 'e' := by
      rw [hpq, hxe]; decide
    have hnE : peek_char { p with current_char_i := p.current_char_i + d.length } ≠ 'E' := by
      rw [hpq, hxe]; decide
    have hmc1 : match_char { p with current_char_i := p.current_char_i + d.length } 'e' =
        (false, { p with current_char_i := p.current_char_i + d.length }) := by
      rw [match_char, if_pos hne]
    have hmc2 : match_char { p with current_char_i := p.current_char_i + d.length } 'E' =
        (false, { p with current_char_i := p.current_char_i + d.length }) := by
      rw [match_char, if_pos hnE]
    rw [read_number, hskip, hfrac]
    simp only [read_number_exp, hmc1, hmc2]
    exact ⟨trivial, trivial⟩

/-- Claim C5 witness: lexing `123.abs` from the start stops with the cursor
exactly after `123` (position 3) with no error, and lexing `45x` stops at
position 2. -/
theorem read_number_c5_witness :
    (read_number ⟨"123.abs".toList, 0, 1, false⟩).current_char_i = 3 ∧
    (read_number ⟨"123.abs".toList, 0, 1, false⟩).has_error = false ∧
    (read_number ⟨"45x".toList, 0, 1, false⟩).current_char_i = 2 ∧
    (read_number ⟨"45x".toList, 0, 1, false⟩).has_error = false := by
  have h1 := (read_number_c5_boundary ⟨"123.abs".toList, 0, 1, false⟩
    ['1', '2', '3'] '.' "abs".toList (by decide) (by decide) (by decide)).2
    ⟨rfl, by decide⟩
  have h2 := (read_number_c5_boundary ⟨"45x".toList, 0, 1, false⟩
    ['4', '5'] 'x' [] (by decide) (by decide) (by decide)).1
    ⟨by decide, by decide, by decide⟩
  exact ⟨h1.1, h1.2, h2.1, h2.2⟩

/-- Claim C6: after an exponent marker `e`/`E`, `read_number` consumes at
most one sign character (`+` or `-`) and then requires at least one digit:
it reports a lexical error exactly when the character after the optionally
consumed sign is not a digit, and otherwise leaves the error flag alone. -/
theorem read_number_c6_exponent (p : Parser) (d : List Char) (m : Char) (t : List Char)
    (hdrop : p.source.drop p.current_char_i = d ++ m :: t)
    (hd : ∀ c ∈ d, is_digit c = true)
    (hm : m = 'e' ∨ m = 'E') :
    (read_number p).has_error =
      (p.has_error ||
        !(is_digit ((if t.headD '\x00' = '+' ∨ t.headD '\x00' = '-'
                     then t.tail else t).headD '\x00'))) := by
  have hlen : d.length ≤ p.source.length := length_le_of_drop hdrop
  have hmd : is_digit m = false := by
    rcases hm with h | h <;> rw [h] <;> rfl
  have hskip : skip_digits (p.source.length + 1) p =
      { p with current_char_i := p.current_char_i + d.length } :=
    skip_digits_spec d _ p (m :: t) hdrop hd (by simpa using hmd) (by omega)
  have hdq : ({ p with current_char_i := p.current_char_i + d.length } : Parser).source.drop
      (p.current_char_i + d.length) = m :: t := drop_add_of_drop hdrop
  have hpq : peek_char { p with current_char_i := p.current_char_i + d.length } = m :=
    peek_char_of_drop hdq
  have hfrac : read_number_frac
      { p with current_char_i := p.current_char_i + d.length } =
      { p with current_char_i := p.current_char_i + d.length } := by
    rw [read_number_frac, if_neg]
    intro hcc
    rcases hm with h | h <;> rw [hpq, h] at hcc <;> exact absurd hcc.1 (by decide)
  have hnn : peek_char { p with current_char_i := p.current_char_i + d.length } ≠ '\n' := by
    rw [hpq]; rcases hm with h | h <;> rw [h] <;> decide
  have hdq2 : ({ p with current_char_i := p.current_char_i + d.length + 1 } : Parser).source.drop
      (p.current_char_i + d.length + 1) = t := drop_succ_of_eq_cons hdq
  have herr := read_number_exp_rest_err
    { p with current_char_i := p.current_char_i + d.length + 1 } t hdq2
  rw [read_number, hskip, hfrac]
  rcases hm with h | h
  · have hmc1 : match_char { p with current_char_i := p.current_char_i + d.length } 'e' =
        (true, { p with current_char_i := p.current_char_i + d.length + 1 }) := by
      rw [match_char, if_neg (fun hcon => hcon (by rw [hpq, h])),
        next_char_snd_of_ne hnn]
    simp only [read_number_exp, hmc1]
    exact herr
  · have hmc1 : match_char { p with current_char_i := p.current_char_i + d.length } 'e' =
        (false, { p with current_char_i := p.current_char_i + d.length }) := by
      rw [match_char, if_pos (by rw [hpq, h]; decide)]
    have hmc2 : match_char { p with current_char_i := p.current_char_i + d.length } 'E' =
        (true, { p with current_char_i := p.current_char_i + d.length + 1 }) := by
      rw [match_char, if_neg (fun hcon => hcon (by rw [hpq, h])),
        next_char_snd_of_ne hnn]
    simp only [read_number_exp, hmc1, hmc2]
    exact herr

/-- Claim C6 witness: `1e+-2` reports the missing-exponent-digit error (the
single consumed sign is `+`, and `-` is not a digit), while `1E-2x` scans
with no error. -/
theorem read_number_c6_witness :
    (read_number ⟨"1e+-2".toList, 0, 1, false⟩).has_error = true ∧
    (read_number ⟨"1E-2x".toList, 0, 1, false⟩).has_error = false := by
  have h1 := read_number_c6_exponent ⟨"1e+-2".toList, 0, 1, false⟩
    ['1'] 'e' "+-2".toList (by decide) (by decide) (Or.inl rfl)
  have h2 := read_number_c6_exponent ⟨"1E-2x".toList, 0, 1, false⟩
    ['1'] 'E' "-2x".toList (by decide) (by decide) (Or.inr rfl)
  constructor
  · rw [h1]; decide
  · rw [h2]; decide

/-- Claim C4: for invalid input the lexer records the error rather than
aborting: `lex_error` (through the spec-modelled `print_error` sink) is a
total function — it never panics — that sets `has_error = true` and leaves
the source, the cursor and the line untouched, so scanning can continue
forward and several independent diagnostics can be collected in one pass. -/
theorem lex_error_c4_records_and_continues (p : Parser) (msg : String) :
    (lex_error p msg).has_error = true ∧
    (lex_error p msg).source = p.source ∧
    (lex_error p msg).current_char_i = p.current_char_i ∧
    (lex_error p msg).current_line = p.current_line :=
  ⟨rfl, rfl, rfl, rfl⟩

/-- Claim C8: the hard limit constants in `src/compile.rs` and
`src/common.rs` equal the spec's values (256 locals, 256 upvalues,
255 fields, 65536 constants, 65536 module variables, 65536 instructions of
jump distance), and the spec-modelled enforcement refuses the entry past
each limit with a compile error value — a total function, not a panic —
while the entry at the limit still succeeds. -/
theorem limits_c8_match_spec :
    MAX_LOCALS = 256 ∧ MAX_UPVALUES = 256 ∧ MAX_FIELDS = 255 ∧
    MAX_CONSTANTS = 65536 ∧ MAX_MODULE_VARS = 65536 ∧ MAX_JUMP = 65536 ∧
    exceptOk (check_limit 256 MAX_LOCALS "Too many locals.") = false ∧
    exceptOk (check_limit 255 MAX_LOCALS "Too many locals.") = true ∧
    exceptOk (check_limit 256 MAX_UPVALUES "Too many upvalues.") = false ∧
    exceptOk (check_limit 255 MAX_UPVALUES "Too many upvalues.") = true ∧
    exceptOk (check_limit 255 MAX_FIELDS "Too many fields.") = false ∧
    exceptOk (check_limit 254 MAX_FIELDS "Too many fields.") = true ∧
    exceptOk (check_limit 65536 MAX_CONSTANTS "Too many constants.") = false ∧
    exceptOk (check_limit 65535 MAX_CONSTANTS "Too many constants.") = true ∧
    exceptOk (check_limit 65536 MAX_MODULE_VARS "Too many module variables.") = false ∧
    exceptOk (check_limit 65535 MAX_MODULE_VARS "Too many module variables.") = true ∧
    exceptOk (check_jump 65537) = false ∧
    exceptOk (check_jump 65536) = true := by
  decide

/-- Claim C9: `peek_char` and `peek_next_char` are total at every cursor
position: in bounds they return the character at that position, at or past
the end of the source buffer they return `'\0'` instead of panicking. -/
theorem peek_c9_total (src : List Char) (i line : Nat) (err : Bool) :
    peek_char ⟨src, i, line, err⟩ =
      (if h : i < src.length then src.get ⟨i, h⟩ else '\x00') ∧
    peek_next_char ⟨src, i, line, err⟩ =
      (if h : i + 1 < src.length then src.get ⟨i + 1, h⟩ else '\x00') := by
  constructor
  · show src.getD i '\x00' = _
    by_cases h : i < src.length
    · rw [dif_pos h, List.getD_eq_getElem _ _ h]
      simp
    · rw [dif_neg h, List.getD_eq_default _ _ (by omega)]
  · show src.getD (i + 1) '\x00' = _
    by_cases h : i + 1 < src.length
    · rw [dif_pos h, List.getD_eq_getElem _ _ h]
      simp
    · rw [dif_neg h, List.getD_eq_default _ _ (by omega)]

/-- Claim C10: `read_hex_digit` is exact and non-consuming on failure: on a
hex digit it returns that digit's value (between 0 and 15) and advances the
cursor by exactly one; on any other character it returns `-1` and leaves
`current_char_i` exactly where it was before the call. -/
theorem read_hex_digit_c10_exact (p : Parser) :
    (('0' ≤ peek_char p ∧ peek_char p ≤ '9') →
       (read_hex_digit p).1 = ((peek_char p).toNat : Int) - ('0'.toNat : Int) ∧
       0 ≤ (read_hex_digit p).1 ∧ (read_hex_digit p).1 ≤ 15 ∧
       (read_hex_digit p).2.current_char_i = p.current_char_i + 1) ∧
    (('a' ≤ peek_char p ∧ peek_char p ≤ 'f') →
       (read_hex_digit p).1 = ((peek_char p).toNat : Int) - ('a'.toNat : Int) + 10 ∧
       0 ≤ (read_hex_digit p).1 ∧ (read_hex_digit p).1 ≤ 15 ∧
       (read_hex_digit p).2.current_char_i = p.current_char_i + 1) ∧
    (('A' ≤ peek_char p ∧ peek_char p ≤ 'F') →
       (read_hex_digit p).1 = ((peek_char p).toNat : Int) - ('A'.toNat : Int) + 10 ∧
       0 ≤ (read_hex_digit p).1 ∧ (read_hex_digit p).1 ≤ 15 ∧
       (read_hex_digit p).2.current_char_i = p.current_char_i + 1) ∧
    (¬ ('0' ≤ peek_char p ∧ peek_char p ≤ '9') →
     ¬ ('a' ≤ peek_char p ∧ peek_char p ≤ 'f') →
     ¬ ('A' ≤ peek_char p ∧ peek_char p ≤ 'F') →
       (read_hex_digit p).1 = -1 ∧
       (read_hex_digit p).2.current_char_i = p.current_char_i) := by
  have hfst : (next_char p).1 = peek_char p := next_char_fst p
  have e0 : '0'.toNat = 48 := rfl
  have e9 : '9'.toNat = 57 := rfl
  have ea : 'a'.toNat = 97 := rfl
  have ef : 'f'.toNat = 102 := rfl
  have eA : 'A'.toNat = 65 := rfl
  have eF : 'F'.toNat = 70 := rfl
  refine ⟨?_, ?_, ?_, ?_⟩
  · intro h
    have h0 := char_le_toNat h.1
    have h9 := char_le_toNat h.2
    rw [e0] at h0
    rw [e9] at h9
    have hr : read_hex_digit p =
        (((peek_char p).toNat : Int) - ('0'.toNat : Int), (next_char p).2) := by
      simp only [read_hex_digit, hfst, if_pos h]
    rw [hr, e0]
    refine ⟨rfl, by simp; omega, by simp; omega, by simp⟩
  · intro h
    have ha := char_le_toNat h.1
    have hf := char_le_toNat h.2
    rw [ea] at ha
    rw [ef] at hf
    have hno : ¬ ('0' ≤ peek_char p ∧ peek_char p ≤ '9') := by
      intro hc
      have h9 := char_le_toNat hc.2
      rw [e9] at h9
      omega
    have hr : read_hex_digit p =
        (((peek_char p).toNat : Int) - ('a'.toNat : Int) + 10, (next_char p).2) := by
      simp only [read_hex_digit, hfst, if_neg hno, if_pos h]
    rw [hr, ea]
    refine ⟨rfl, by simp; omega, by simp; omega, by simp⟩
  · intro h
    have hA := char_le_toNat h.1
    have hF := char_le_toNat h.2
    rw [eA] at hA
    rw [eF] at hF
    have hno : ¬ ('0' ≤ peek_char p ∧ peek_char p ≤ '9') := by
      intro hc
      have h9 := char_le_toNat hc.2
      rw [e9] at h9
      omega
    have hno2 : ¬ ('a' ≤ peek_char p ∧ peek_char p ≤ 'f') := by
      intro hc
      have hx := char_le_toNat hc.1
      rw [ea] at hx
      omega
    have hr : read_hex_digit p =
        (((peek_char p).toNat : Int) - ('A'.toNat : Int) + 10, (next_char p).2) := by
      simp only [read_hex_digit, hfst, if_neg hno, if_neg hno2, if_pos h]
    rw [hr, eA]
    refine ⟨rfl, by simp; omega, by simp; omega, by simp⟩
  · intro h1 h2 h3
    have hr : read_hex_digit p =
        (-1, { (next_char p).2 with
                current_char_i := ((next_char p).2).current_char_i - 1 }) := by
      simp only [read_hex_digit, hfst, if_neg h1, if_neg h2, if_neg h3]
    rw [hr]
    exact ⟨rfl, by simp⟩

/-- Claim C10 witness: at `'7'` the value is 7 and the cursor advances by
one; at `'z'` the value is `-1` and the cursor is left unchanged. -/
theorem read_hex_digit_c10_witness :
    (read_hex_digit ⟨['7'], 0, 1, false⟩).1 = 7 ∧
    (read_hex_digit ⟨['7'], 0, 1, false⟩).2.current_char_i = 1 ∧
    (read_hex_digit ⟨['z'], 0, 1, false⟩).1 = -1 ∧
    (read_hex_digit ⟨['z'], 0, 1, false⟩).2.current_char_i = 0 := by
  have h7 := (read_hex_digit_c10_exact ⟨['7'], 0, 1, false⟩).1 (by decide)
  have hz := (read_hex_digit_c10_exact ⟨['z'], 0, 1, false⟩).2.2.2
    (by decide) (by decide) (by decide)
  refine ⟨?_, ?_, hz.1, hz.2⟩
  · rw [h7.1]; decide
  · exact h7.2.2.2

end Starling
